import Mathlib

/-!
Verification of the upbit-bitget trading bot's core pipeline.

Shallow embedding of the Go sources:
  * `models/position.go`       → `PositionStatus`, `Position`, `Position.CalculatePNL`,
                                 `Position.ShouldTakeProfit`
  * `main.go` (`safeGo`) and `services/trading_engine.go` (`safeGoTE`) → supervisor step models
  * `services/upbit_monitor.go` → backoff state machine, 429 handling, symbol extraction,
                                 dedup-set/event-bus state machine
  * `services/trading_engine.go` → reconciliation trace, worker-pool/lock interleaving model,
                                 `updatePositionPNL` outcome model

Prices and quantities (Go `float64`) are modelled as rationals; Go `int`/`int64`
arithmetic is modelled as `Int` with explicit two's-complement wrapping (`wrap64`)
where overflow is reachable.
-/

namespace BitgetPerp

/-- Generic counter: number of elements of a list satisfying a Boolean predicate. -/
def cnt {α : Type} (p : α → Bool) : List α → Nat
  | [] => 0
  | x :: xs => (if p x then 1 else 0) + cnt p xs

theorem cnt_append {α : Type} (p : α → Bool) (l₁ l₂ : List α) :
    cnt p (l₁ ++ l₂) = cnt p l₁ + cnt p l₂ := by
  induction l₁ with
  | nil => simp [cnt]
  | cons x xs ih => simp [cnt, ih]; omega

theorem cnt_le_of_imp {α : Type} {p q : α → Bool} (l : List α)
    (h : ∀ x ∈ l, p x = true → q x = true) : cnt p l ≤ cnt q l := by
  induction l with
  | nil => simp [cnt]
  | cons x xs ih =>
    have hx := h x (by simp)
    have hxs : ∀ y ∈ xs, p y = true → q y = true := fun y hy => h y (by simp [hy])
    simp only [cnt]
    by_cases hp : p x = true
    · rw [if_pos hp, if_pos (hx hp)]
      exact Nat.add_le_add_left (ih hxs) 1
    · rw [if_neg hp]
      have := ih hxs
      cases hq : q x <;> simp <;> omega

theorem cnt_eq_zero_of_all {α : Type} {p : α → Bool} {l : List α}
    (h : ∀ x ∈ l, p x = false) : cnt p l = 0 := by
  induction l with
  | nil => rfl
  | cons x xs ih =>
    simp only [cnt, h x (by simp)]
    simp [ih (fun y hy => h y (by simp [hy]))]

/-- Counting after a point update: the count of the updated list plus the old
element's contribution equals the original count plus the new element's. -/
theorem cnt_set {α : Type} (p : α → Bool) (l : List α) (i : Nat) (x : α) (h : i < l.length) :
    cnt p (l.set i x) + (if p (l.get ⟨i, h⟩) then 1 else 0)
      = cnt p l + (if p x then 1 else 0) := by
  induction l generalizing i with
  | nil => simp at h
  | cons y ys ih =>
    cases i with
    | zero => simp [cnt, List.set]; omega
    | succ j =>
      have hj : j < ys.length := by simpa using h
      simp only [List.set, cnt, List.get]
      have := ih j hj
      omega

/-! ## Position model (`models/position.go`) -/

inductive PositionStatus
  | PositionOpen
  | PositionClosed
  deriving DecidableEq, Repr

/-- The fields of `models.Position` relevant to P&L, take-profit and status
transitions.  Go `float64` fields are modelled as `ℚ`; `Leverage` is a Go `int`. -/
structure Position where
  EntryPrice : ℚ
  CurrentPrice : ℚ
  Quantity : ℚ
  Leverage : Int
  TakeProfitPrice : ℚ
  CurrentPNL : ℚ
  ROE : ℚ
  Status : PositionStatus
  ClosedAt : Option Int
  deriving DecidableEq, Repr

/-- `Position.CalculatePNL`: returns unchanged when entry price, current price or
quantity is non-positive; otherwise sets `CurrentPNL := (CurrentPrice - EntryPrice) * Quantity`
and, when the margin `(EntryPrice * Quantity) / Leverage` is positive,
`ROE := CurrentPNL / margin * 100`. -/
def Position.CalculatePNL (p : Position) : Position :=
  if p.EntryPrice ≤ 0 ∨ p.CurrentPrice ≤ 0 ∨ p.Quantity ≤ 0 then p
  else
    let pnl := (p.CurrentPrice - p.EntryPrice) * p.Quantity
    let margin := p.EntryPrice * p.Quantity / (p.Leverage : ℚ)
    if 0 < margin then { p with CurrentPNL := pnl, ROE := pnl / margin * 100 }
    else { p with CurrentPNL := pnl }

/-- `Position.ShouldTakeProfit`: status is open and current price has reached the
take-profit price. -/
def Position.ShouldTakeProfit (p : Position) : Bool :=
  decide (p.Status = PositionStatus.PositionOpen) && decide (p.TakeProfitPrice ≤ p.CurrentPrice)

/-- C9: for positions with positive entry price, current price, quantity and
leverage, `CalculatePNL` sets `CurrentPNL = (CurrentPrice - EntryPrice) * Quantity`
and `ROE = CurrentPNL / ((EntryPrice * Quantity) / Leverage) * 100`. -/
theorem calculatePNL_formula (p : Position)
    (hE : 0 < p.EntryPrice) (hC : 0 < p.CurrentPrice) (hQ : 0 < p.Quantity)
    (hL : 0 < p.Leverage) :
    (p.CalculatePNL).CurrentPNL = (p.CurrentPrice - p.EntryPrice) * p.Quantity ∧
    (p.CalculatePNL).ROE =
      ((p.CurrentPrice - p.EntryPrice) * p.Quantity)
        / (p.EntryPrice * p.Quantity / (p.Leverage : ℚ)) * 100 := by
  have hguard : ¬(p.EntryPrice ≤ 0 ∨ p.CurrentPrice ≤ 0 ∨ p.Quantity ≤ 0) := by
    push_neg
    exact ⟨hE, hC, hQ⟩
  have hLq : (0 : ℚ) < (p.Leverage : ℚ) := by exact_mod_cast hL
  have hm : 0 < p.EntryPrice * p.Quantity / (p.Leverage : ℚ) :=
    div_pos (mul_pos hE hQ) hLq
  unfold Position.CalculatePNL
  rw [if_neg hguard]
  simp [hm]

theorem calculatePNL_formula_witness :
    (0 : ℚ) < 1 ∧
    ({ EntryPrice := 1, CurrentPrice := 2, Quantity := 3, Leverage := 2,
       TakeProfitPrice := 2, CurrentPNL := 0, ROE := 0,
       Status := PositionStatus.PositionOpen, ClosedAt := none : Position }.CalculatePNL).CurrentPNL
      = ((2 : ℚ) - 1) * 3 := by
  refine ⟨by norm_num, ?_⟩
  exact (calculatePNL_formula
    { EntryPrice := 1, CurrentPrice := 2, Quantity := 3, Leverage := 2,
      TakeProfitPrice := 2, CurrentPNL := 0, ROE := 0,
      Status := PositionStatus.PositionOpen, ClosedAt := none }
    (by norm_num) (by norm_num) (by norm_num) (by norm_num)).1

/-- C10: when entry price, current price or quantity is non-positive,
`CalculatePNL` is the identity: every field of the position is unchanged. -/
theorem calculatePNL_noop (p : Position)
    (h : p.EntryPrice ≤ 0 ∨ p.CurrentPrice ≤ 0 ∨ p.Quantity ≤ 0) :
    p.CalculatePNL = p := by
  unfold Position.CalculatePNL
  rw [if_pos h]

theorem calculatePNL_noop_witness :
    ((0 : ℚ) ≤ 0 ∨ (5 : ℚ) ≤ 0 ∨ (3 : ℚ) ≤ 0) ∧
    ({ EntryPrice := 0, CurrentPrice := 5, Quantity := 3, Leverage := 10,
       TakeProfitPrice := 9, CurrentPNL := 7, ROE := 11,
       Status := PositionStatus.PositionOpen, ClosedAt := none : Position }.CalculatePNL
      = { EntryPrice := 0, CurrentPrice := 5, Quantity := 3, Leverage := 10,
          TakeProfitPrice := 9, CurrentPNL := 7, ROE := 11,
          Status := PositionStatus.PositionOpen, ClosedAt := none }) := by
  refine ⟨Or.inl (by norm_num), ?_⟩
  exact calculatePNL_noop _ (Or.inl (by norm_num))

/-! ## Supervisor models (`main.go` `safeGo`, `trading_engine.go` `safeGoTE`) -/

inductive RunOutcome
  | panics
  | normal
  deriving DecidableEq, Repr

/-- Observable supervisor state: how many times the supervised function has been
started, how many 10-second cooldown waits happened, and whether the supervisor
loop is still going to start the function again. -/
structure SupSt where
  started : Nat
  cooldowns : Nat
  active : Bool
  deriving DecidableEq, Repr

/-- One iteration of `safeGo`'s `for` loop in `main.go`, given the outcome of the
wrapped function's run: a panic is recovered, a 10-second cooldown is taken and
`shouldRestart` is set (loop continues); a normal return sets `shouldRestart`
to false and the loop `break`s. -/
def safeGoIter (o : RunOutcome) (s : SupSt) : SupSt :=
  match o with
  | .panics => { started := s.started + 1, cooldowns := s.cooldowns + 1, active := true }
  | .normal => { started := s.started + 1, cooldowns := s.cooldowns, active := false }

/-- One iteration of `safeGoTE`'s `for` loop in `trading_engine.go`: a panic is
recovered with a 10-second cooldown and the loop continues; on a normal return
the `return` statement exits only the inner closure, so the `for` loop also
continues (there is no `break` and no loop-exit flag). -/
def safeGoTEIter (o : RunOutcome) (s : SupSt) : SupSt :=
  match o with
  | .panics => { started := s.started + 1, cooldowns := s.cooldowns + 1, active := true }
  | .normal => { started := s.started + 1, cooldowns := s.cooldowns, active := true }

/-- Run a supervisor for `k` loop iterations; `fn j` is the outcome of the j-th
run of the supervised function.  While the supervisor is active, each iteration
runs the function once. -/
def supervise (iter : RunOutcome → SupSt → SupSt) (fn : Nat → RunOutcome) : Nat → SupSt
  | 0 => { started := 0, cooldowns := 0, active := true }
  | k + 1 =>
    let s := supervise iter fn k
    if s.active then iter (fn s.started) s else s

/-- C1 (code evaluated at the failing input): a task whose function always
returns normally is started exactly once by `safeGo` (never restarted, as the
spec says), but `safeGoTE` starts it again on every loop iteration — five
starts after five iterations — with zero cooldown waits, because the `return`
after `fn()` exits only the inner closure, not `safeGoTE`'s `for` loop.
A panicking task is restarted with a cooldown by both. -/
theorem safeGoTE_restarts_after_normal_return :
    (supervise safeGoIter (fun _ => RunOutcome.normal) 5).started = 1 ∧
    (supervise safeGoTEIter (fun _ => RunOutcome.normal) 5).started = 5 ∧
    (supervise safeGoTEIter (fun _ => RunOutcome.normal) 5).cooldowns = 0 ∧
    (supervise safeGoIter (fun _ => RunOutcome.panics) 3).started = 3 ∧
    (supervise safeGoIter (fun _ => RunOutcome.panics) 3).cooldowns = 3 ∧
    (supervise safeGoTEIter (fun _ => RunOutcome.panics) 3).started = 3 := by
  decide

/-! ## Poller backoff state (`upbit_monitor.go`) -/

/-- Two's-complement wrap of an integer to a signed 64-bit value, for the Go
`int`/`time.Duration` arithmetic in the backoff computations. -/
def wrap64 (x : Int) : Int := (x + 2 ^ 63) % 2 ^ 64 - 2 ^ 63

/-- Go `1 << uint s` at type `int`: zero when the shift count is ≥ 64, otherwise
`2 ^ s` wrapped to 64 bits (so `1 << 63` is the negative value `-2^63`). -/
def int64Shl1 (s : Nat) : Int := if 64 ≤ s then 0 else wrap64 (2 ^ s)

/-- The Poller's backoff-relevant state (`failureCount`, `backoffUntil`).  Time
is measured in nanoseconds (Go `time.Time`/`time.Duration` granularity). -/
structure BackoffState where
  failureCount : Nat
  backoffUntil : Int
  deriving DecidableEq, Repr

/-- `applyBackoff`: increments `failureCount`, computes
`backoffMinutes := 1 << (failureCount-1)` (Go `int` shift), caps it at 10 when
it exceeds 10, converts to a `time.Duration` (wrapping 64-bit multiplication by
6·10^10 ns/minute) and sets `backoffUntil := now + duration`. -/
def applyBackoff (now : Int) (st : BackoffState) : BackoffState :=
  let fc := st.failureCount + 1
  let bm := int64Shl1 (fc - 1)
  let bm2 := if 10 < bm then 10 else bm
  let dur := wrap64 (bm2 * 60000000000)
  { failureCount := fc, backoffUntil := now + dur }

theorem wrap64_eq_self {x : Int} (h₁ : -(2 ^ 63) ≤ x) (h₂ : x < 2 ^ 63) :
    wrap64 x = x := by
  unfold wrap64
  have hlo : (0 : Int) ≤ x + 2 ^ 63 := by omega
  have hhi : x + 2 ^ 63 < 2 ^ 64 := by omega
  rw [Int.emod_eq_of_lt hlo hhi]
  omega

/-- C5 (amended): for the first 63 successive rate-limit failures — i.e. whenever
the pre-call `failureCount` is at most 62 — `applyBackoff` increments the
failure count and sets `backoffUntil` to now plus `min(2^failureCount, 10)`
minutes (in nanoseconds), giving the delays 1, 2, 4, 8, 10, 10, …. -/
theorem applyBackoff_formula (now : Int) (st : BackoffState)
    (h : st.failureCount ≤ 62) :
    (applyBackoff now st).failureCount = st.failureCount + 1 ∧
    (applyBackoff now st).backoffUntil
      = now + min ((2 : Int) ^ st.failureCount) 10 * 60000000000 := by
  have hshift : int64Shl1 st.failureCount = (2 : Int) ^ st.failureCount := by
    unfold int64Shl1
    rw [if_neg (by omega)]
    apply wrap64_eq_self
    · have h0 : (0 : Int) ≤ 2 ^ st.failureCount := by positivity
      linarith
    · calc (2 : Int) ^ st.failureCount ≤ 2 ^ 62 := by
            exact pow_le_pow_right₀ (by norm_num) h
        _ < 2 ^ 63 := by norm_num
  unfold applyBackoff
  refine ⟨rfl, ?_⟩
  simp only [Nat.add_sub_cancel, hshift]
  by_cases hb : (10 : Int) < 2 ^ st.failureCount
  · rw [if_pos hb]
    rw [wrap64_eq_self (by norm_num) (by norm_num)]
    rw [min_eq_right (le_of_lt hb)]
  · rw [if_neg hb]
    push_neg at hb
    have hpos : (0 : Int) ≤ 2 ^ st.failureCount := by positivity
    rw [wrap64_eq_self (by nlinarith) (by nlinarith)]
    rw [min_eq_left hb]

theorem applyBackoff_formula_witness :
    (({ failureCount := 0, backoffUntil := 0 } : BackoffState).failureCount ≤ 62) ∧
    (applyBackoff 1000 { failureCount := 0, backoffUntil := 0 }).backoffUntil
      = 1000 + min ((2 : Int) ^ 0) 10 * 60000000000 :=
  ⟨by norm_num,
   (applyBackoff_formula 1000 { failureCount := 0, backoffUntil := 0 } (by norm_num)).2⟩

/-- Iterate `applyBackoff` k times at a fixed response time `now`. -/
def iterBackoff (now : Int) : Nat → BackoffState
  | 0 => { failureCount := 0, backoffUntil := 0 }
  | k + 1 => applyBackoff now (iterBackoff now k)

/-- C5 counterexample: starting from failure count 0, the 64th successive
rate-limit response does not get the claimed `min(2^63, 10) = 10`-minute delay.
`1 << 63` wraps to the negative Go `int` `-2^63`, the `> 10` cap does not fire,
and the duration multiplication wraps to 0 ns, so `backoffUntil` is set to the
response time itself (delay 0) instead of now + 10 minutes. -/
theorem applyBackoff_overflows_at_64 :
    (iterBackoff 0 64).failureCount = 64 ∧
    (iterBackoff 0 64).backoffUntil = 0 ∧
    (iterBackoff 0 64).backoffUntil ≠ 0 + min ((2 : Int) ^ 63) 10 * 60000000000 ∧
    (iterBackoff 0 63).backoffUntil = 600000000000 := by
  refine ⟨by decide, by decide, ?_, by decide⟩
  have h : min ((2 : Int) ^ 63) 10 = 10 := by decide
  rw [h]
  decide

/-! ## 429 handling (`checkAnnouncements`, `upbit_monitor.go`) -/

/-- Accumulate decimal digits; fails on any non-digit character
(`strconv.Atoi` rejects the whole string on the first bad character). -/
def parseDigitsAux : List Char → Nat → Option Nat
  | [], acc => some acc
  | c :: cs, acc =>
    if '0' ≤ c ∧ c ≤ '9' then parseDigitsAux cs (acc * 10 + (c.toNat - '0'.toNat))
    else none

/-- Parse an optionally signed digit string into a value in the Go `int`
(64-bit) range; `none` models `strconv.Atoi` returning a non-nil error
(empty string, stray character, or out-of-range value). -/
def goAtoiCore (neg : Bool) (cs : List Char) : Option Int :=
  match cs with
  | [] => none
  | _ :: _ =>
    (parseDigitsAux cs 0).bind fun n =>
      let v : Int := if neg then -(n : Int) else (n : Int)
      if -(2 ^ 63) ≤ v ∧ v < 2 ^ 63 then some v else none

/-- Go `strconv.Atoi`. -/
def goAtoi (s : List Char) : Option Int :=
  match s with
  | [] => none
  | '+' :: rest => goAtoiCore false rest
  | '-' :: rest => goAtoiCore true rest
  | _ => goAtoiCore false s

/-- The 429 branch of `checkAnnouncements`: if the `Retry-After` header value is
non-empty, parses as an integer and is positive, set
`backoffUntil := now + seconds` (converted to a wrapping 64-bit `time.Duration`
in nanoseconds) leaving `failureCount` untouched; otherwise fall back to
`applyBackoff`.  `retryAfter = []` models a missing header (Go
`Header.Get` returns `""`). -/
def handle429 (now : Int) (retryAfter : List Char) (st : BackoffState) : BackoffState :=
  if retryAfter ≠ [] then
    match goAtoi retryAfter with
    | some seconds =>
      if 0 < seconds then
        { st with backoffUntil := now + wrap64 (seconds * 1000000000) }
      else applyBackoff now st
    | none => applyBackoff now st
  else applyBackoff now st

/-- C6 (amended): a 429 whose `Retry-After` parses as a positive number of
seconds small enough that the nanosecond conversion does not overflow a 64-bit
`time.Duration` (seconds ≤ 9 223 372 036) sets `backoffUntil` to exactly the
response time plus that many seconds, leaving `failureCount` unchanged; a
missing, non-numeric, or non-positive value instead takes the
exponential-backoff path (`applyBackoff`). -/
theorem handle429_honors_retry_after (now : Int) (st : BackoffState) (ra : List Char) :
    (∀ seconds : Int, goAtoi ra = some seconds → 0 < seconds → seconds ≤ 9223372036 →
      (handle429 now ra st).backoffUntil = now + seconds * 1000000000 ∧
      (handle429 now ra st).failureCount = st.failureCount) ∧
    (ra = [] ∨ goAtoi ra = none ∨ (∃ s : Int, goAtoi ra = some s ∧ s ≤ 0) →
      handle429 now ra st = applyBackoff now st) := by
  constructor
  · intro seconds hparse hpos hsmall
    have hne : ra ≠ [] := by
      intro h
      rw [h] at hparse
      simp [goAtoi] at hparse
    have hwrap : wrap64 (seconds * 1000000000) = seconds * 1000000000 := by
      apply wrap64_eq_self
      · nlinarith
      · nlinarith
    unfold handle429
    rw [if_pos hne, hparse]
    simp [hpos, hwrap]
  · intro h
    rcases h with h | h | ⟨s, hs, hsp⟩
    · unfold handle429
      rw [if_neg (by simp [h])]
    · unfold handle429
      by_cases hne : ra ≠ []
      · rw [if_pos hne, h]
      · rw [if_neg hne]
    · unfold handle429
      have hne : ra ≠ [] := by
        intro hra
        rw [hra] at hs
        simp [goAtoi] at hs
      rw [if_pos hne, hs]
      have hnp : ¬(0 : Int) < s := by omega
      simp [hnp]

theorem handle429_honors_retry_after_witness :
    goAtoi ("120".data) = some 120 ∧
    (handle429 5000 ("120".data) { failureCount := 2, backoffUntil := 0 }).backoffUntil
      = 5000 + 120 * 1000000000 ∧
    (handle429 5000 ("120".data) { failureCount := 2, backoffUntil := 0 }).failureCount = 2 := by
  have h := (handle429_honors_retry_after 5000 { failureCount := 2, backoffUntil := 0 }
    ("120".data)).1 120 (by decide) (by decide) (by decide)
  exact ⟨by decide, h.1, h.2⟩

/-- C6 counterexample: `Retry-After: 10000000000` parses as a positive integer
(far inside the Go `int` range), yet the conversion
`time.Duration(seconds) * time.Second` wraps around 64 bits, so `backoffUntil`
is *not* response time + 10 000 000 000 s — it is set about 292 years into the
past instead. -/
theorem handle429_overflow_counterexample :
    goAtoi ("10000000000".data) = some 10000000000 ∧
    (0 : Int) < 10000000000 ∧
    (handle429 0 ("10000000000".data) { failureCount := 0, backoffUntil := 0 }).backoffUntil
      ≠ 0 + 10000000000 * 1000000000 ∧
    (handle429 0 ("10000000000".data) { failureCount := 0, backoffUntil := 0 }).backoffUntil < 0 := by
  refine ⟨by decide, by decide, by decide, by decide⟩

/-! ## Reconciliation cycle (`updateAllPositions`, `trading_engine.go`) -/

inductive CycleEv
  | tryLockFailed
  | queryPositions
  | launchTask (i : Nat)
  | unlockGuard
  deriving DecidableEq, Repr

inductive QueryRes
  | dbLost
  | queryErr
  | found (n : Nat)
  deriving DecidableEq, Repr

def isLaunchEv : CycleEv → Bool
  | .launchTask _ => true
  | _ => false

def isQueryEv : CycleEv → Bool
  | .queryPositions => true
  | _ => false

/-- Event trace of one `updateAllPositions` call.  The database-connectivity
check runs first; then a non-blocking `TryLock` of the `updating` guard — on
failure the function returns at once.  With the guard held it queries the open
positions, launches one supervised task per position, and the deferred
`Unlock` fires when the function returns, i.e. after every task has been
launched (not completed). -/
def updateAllPositionsTrace (dbUp : Bool) (guardHeld : Bool) (q : QueryRes) : List CycleEv :=
  if ¬dbUp then []
  else if guardHeld then [.tryLockFailed]
  else
    match q with
    | .dbLost => [.queryPositions, .unlockGuard]
    | .queryErr => [.queryPositions, .unlockGuard]
    | .found n =>
      if n = 0 then [.queryPositions, .unlockGuard]
      else .queryPositions :: ((List.range n).map CycleEv.launchTask ++ [.unlockGuard])

theorem cnt_eq_length_of_all {α : Type} {p : α → Bool} {l : List α}
    (h : ∀ x ∈ l, p x = true) : cnt p l = l.length := by
  induction l with
  | nil => rfl
  | cons x xs ih =>
    simp only [cnt, h x (by simp), if_true, List.length_cons]
    rw [ih (fun y hy => h y (by simp [hy]))]
    omega

/-- C8: a cycle starting while the guard is held produces only the failed
try-lock — no position query and no task launch; a cycle that acquires the
guard launches one task per open position and the guard release is the last
event of the cycle, after all launches. -/
theorem updateAllPositions_overlap_guard (q : QueryRes) (n : Nat) :
    updateAllPositionsTrace true true q = [CycleEv.tryLockFailed] ∧
    cnt isQueryEv (updateAllPositionsTrace true true q) = 0 ∧
    cnt isLaunchEv (updateAllPositionsTrace true true q) = 0 ∧
    cnt isLaunchEv (updateAllPositionsTrace true false (.found n)) = n ∧
    (updateAllPositionsTrace true false (.found n)).getLast? = some CycleEv.unlockGuard := by
  have htrace : updateAllPositionsTrace true false (.found n)
      = CycleEv.queryPositions :: ((List.range n).map CycleEv.launchTask ++ [CycleEv.unlockGuard]) := by
    unfold updateAllPositionsTrace
    by_cases hn : n = 0
    · subst hn
      simp
    · simp [hn]
  refine ⟨by simp [updateAllPositionsTrace], by simp [updateAllPositionsTrace, cnt, isQueryEv],
          by simp [updateAllPositionsTrace, cnt, isLaunchEv], ?_, ?_⟩
  · rw [htrace]
    simp only [cnt, isLaunchEv, cnt_append]
    have h1 : cnt isLaunchEv ((List.range n).map CycleEv.launchTask) = n := by
      rw [cnt_eq_length_of_all]
      · simp
      · intro x hx
        simp only [List.mem_map] at hx
        obtain ⟨i, _, rfl⟩ := hx
        rfl
    simp [h1, cnt, isLaunchEv]
  · rw [htrace, ← List.cons_append]
    exact List.getLast?_concat _

/-! ## Per-position reconciliation (`updatePositionPNL`, `trading_engine.go`) -/

inductive VenueRes
  | queryErr
  | noPosition
  | livePosition (size : String)
  deriving DecidableEq, Repr

inductive PriceRes
  | fetchErr
  | price (v : ℚ)
  deriving DecidableEq, Repr

inductive CloseRes
  | closeErr
  | closeOk
  deriving DecidableEq, Repr

/-- The condition `err != nil || bitgetPosition == nil || bitgetPosition.Size == "0"`
guarding the mark-as-closed branch of `updatePositionPNL`. -/
def venueGone : VenueRes → Bool
  | .queryErr => true
  | .noPosition => true
  | .livePosition sz => sz == "0"

/-- Observable outcome of one `updatePositionPNL` call: the resulting in-memory
position record (which the function saves), whether the "automatically closed"
notification was sent, and whether the function proceeded past the existence
check (price fetch and onward). -/
structure UpdOut where
  pos : Position
  notifiedAbsentClose : Bool
  fetchedPrice : Bool
  deriving DecidableEq, Repr

/-- `updatePositionPNL` for one persisted position.  `credOk` is the credential
decryption result, `venue` the `GetPosition` result, `pr` the `GetSymbolPrice`
result, `dbOk` whether `database.WithDB` saves succeed, `cr` the
`ClosePosition` result inside `executeTakeProfit`. -/
def updatePositionPNLm (now : Int) (credOk : Bool) (venue : VenueRes)
    (pr : PriceRes) (dbOk : Bool) (cr : CloseRes) (p : Position) : UpdOut :=
  if ¬credOk then ⟨p, false, false⟩
  else if venueGone venue then
    ⟨{ p with Status := .PositionClosed, ClosedAt := some now }, dbOk, false⟩
  else
    match pr with
    | .fetchErr => ⟨p, false, true⟩
    | .price v =>
      let p1 := Position.CalculatePNL { p with CurrentPrice := v }
      if ¬dbOk then ⟨p1, false, true⟩
      else if p1.ShouldTakeProfit then
        match cr with
        | .closeErr => ⟨p1, false, true⟩
        | .closeOk => ⟨{ p1 with Status := .PositionClosed, ClosedAt := some now }, false, true⟩
      else ⟨p1, false, true⟩

theorem calculatePNL_status (p : Position) :
    (p.CalculatePNL).Status = p.Status := by
  unfold Position.CalculatePNL
  by_cases h : p.EntryPrice ≤ 0 ∨ p.CurrentPrice ≤ 0 ∨ p.Quantity ≤ 0
  · rw [if_pos h]
  · rw [if_neg h]
    by_cases hm : 0 < p.EntryPrice * p.Quantity / (p.Leverage : ℚ)
    · simp only [hm, if_true]
    · simp only [hm, if_false]

/-- C2 (amended): during reconciliation an open position's record is
transitioned to Closed iff the credentials decrypt and either the venue query
*errored*, reported no position, or reported live size "0", or (with the
intermediate P&L save succeeding) the fetched price reaches the take-profit
target and the close action succeeds.  In the venue-gone branch no further
action is taken and the actor is notified exactly when the save succeeds.
The query-error case closing the record is the divergence from the original
claim. -/
theorem updatePositionPNL_closed_iff (now : Int) (credOk : Bool) (venue : VenueRes)
    (pr : PriceRes) (dbOk : Bool) (cr : CloseRes) (p : Position)
    (hopen : p.Status = PositionStatus.PositionOpen) :
    ((updatePositionPNLm now credOk venue pr dbOk cr p).pos.Status = PositionStatus.PositionClosed ↔
      credOk = true ∧ (venueGone venue = true ∨
        (dbOk = true ∧ ∃ v : ℚ, pr = PriceRes.price v ∧
          (Position.CalculatePNL { p with CurrentPrice := v }).ShouldTakeProfit = true ∧
          cr = CloseRes.closeOk))) ∧
    (credOk = true → venueGone venue = true →
      (updatePositionPNLm now credOk venue pr dbOk cr p).fetchedPrice = false ∧
      (updatePositionPNLm now credOk venue pr dbOk cr p).notifiedAbsentClose = dbOk) := by
  have hst : ∀ v : ℚ,
      (Position.CalculatePNL { p with CurrentPrice := v }).Status
        = PositionStatus.PositionOpen := by
    intro v
    rw [calculatePNL_status]
    exact hopen
  constructor
  · cases credOk with
    | false => simp [updatePositionPNLm, hopen]
    | true =>
      by_cases hv : venueGone venue = true
      · simp [updatePositionPNLm, hv]
      · cases pr with
        | fetchErr => simp [updatePositionPNLm, hv, hopen]
        | price v =>
          cases dbOk with
          | false => simp [updatePositionPNLm, hv, hst v]
          | true =>
            by_cases htp :
                (Position.CalculatePNL { p with CurrentPrice := v }).ShouldTakeProfit = true
            · cases cr with
              | closeErr => simp [updatePositionPNLm, hv, htp, hst v]
              | closeOk => simp [updatePositionPNLm, hv, htp]
            · simp [updatePositionPNLm, hv, htp, hst v]
  · intro hc hv
    subst hc
    simp [updatePositionPNLm, hv]

/-- A concrete open position used to instantiate the reconciliation theorems. -/
def samplePosition : Position :=
  { EntryPrice := 1, CurrentPrice := 1, Quantity := 1, Leverage := 2,
    TakeProfitPrice := 3, CurrentPNL := 0, ROE := 0,
    Status := PositionStatus.PositionOpen, ClosedAt := none }

theorem updatePositionPNL_closed_iff_witness :
    samplePosition.Status = PositionStatus.PositionOpen ∧
    (updatePositionPNLm 0 true VenueRes.noPosition PriceRes.fetchErr true CloseRes.closeOk
      samplePosition).pos.Status = PositionStatus.PositionClosed := by
  refine ⟨rfl, ?_⟩
  exact (updatePositionPNL_closed_iff 0 true VenueRes.noPosition PriceRes.fetchErr true
      CloseRes.closeOk samplePosition rfl).1.mpr ⟨rfl, Or.inl rfl⟩

/-- Helper: with valid credentials, a live venue position and a fetched price,
a failing close action leaves the in-memory status open. -/
theorem updatePositionPNLm_open_of_closeErr (now : Int) (venue : VenueRes) (v : ℚ)
    (dbOk : Bool) (p : Position)
    (hopen : p.Status = PositionStatus.PositionOpen) (hv : venueGone venue = false) :
    (updatePositionPNLm now true venue (PriceRes.price v) dbOk CloseRes.closeErr p).pos.Status
      = PositionStatus.PositionOpen := by
  cases dbOk with
  | false => simp [updatePositionPNLm, hv, hopen, calculatePNL_status]
  | true =>
    by_cases htp : (Position.CalculatePNL { p with CurrentPrice := v }).ShouldTakeProfit = true
    · simp [updatePositionPNLm, hv, htp, hopen, calculatePNL_status]
    · simp [updatePositionPNLm, hv, htp, hopen, calculatePNL_status]

/-- C2 counterexample: (a) a transient venue-query error alone makes the code
mark the open position Closed (and skip all further action), contradicting
"never marked Closed merely because the venue query returned a transient
error"; (b) conversely, a position whose price has reached the take-profit
target is NOT transitioned to Closed when the close action fails, so the
claimed "iff" fails in both directions. -/
theorem updatePositionPNL_counterexample :
    samplePosition.Status = PositionStatus.PositionOpen ∧
    (updatePositionPNLm 0 true VenueRes.queryErr (PriceRes.price 1) true CloseRes.closeOk
      samplePosition).pos.Status = PositionStatus.PositionClosed ∧
    (updatePositionPNLm 0 true (VenueRes.livePosition "5") (PriceRes.price 100) true
      CloseRes.closeErr samplePosition).pos.Status = PositionStatus.PositionOpen ∧
    samplePosition.TakeProfitPrice ≤ (100 : ℚ) := by
  refine ⟨rfl, by decide, ?_, by norm_num [samplePosition]⟩
  exact updatePositionPNLm_open_of_closeErr 0 (VenueRes.livePosition "5") 100 true
    samplePosition rfl (by decide)

/-! ## Dedup set and event bus (`upbit_monitor.go`) -/

/-- Operations touching the monitor's `processedCoins` set and `newCoinChannel`:
`extract s` is one validated candidate symbol flowing through
`parseAnnouncements` (`isNewCoin` → `markCoinAsProcessed` → non-blocking send);
`inject s` is `InjectTestCoin` (same check-mark-send sequence);
`consume` is a channel receive by the trading engine;
`clear` is the administrative `ClearProcessedCoins`. -/
inductive MonOp
  | extract (s : String)
  | inject (s : String)
  | consume
  | clear
  deriving DecidableEq, Repr

/-- Monitor state: the `processedCoins` membership set, the buffered
`newCoinChannel` contents (capacity 100), and a ghost log of every symbol
successfully pushed onto the channel. -/
structure MonState where
  processedCoins : List String
  chan : List String
  pushes : List String
  deriving DecidableEq, Repr

def monStep (st : MonState) (op : MonOp) : MonState :=
  match op with
  | .extract s | .inject s =>
    if s ∈ st.processedCoins then st
    else
      let marked := s :: st.processedCoins
      if st.chan.length < 100 then
        { processedCoins := marked, chan := st.chan ++ [s], pushes := st.pushes ++ [s] }
      else
        { processedCoins := marked, chan := st.chan, pushes := st.pushes }
  | .consume => { st with chan := st.chan.drop 1 }
  | .clear => { st with processedCoins := [] }

def monRun (ops : List MonOp) : MonState :=
  ops.foldl monStep { processedCoins := [], chan := [], pushes := [] }

/-- Dedup invariant carried through clear-free traces. -/
def MonInv (s : String) (st : MonState) : Prop :=
  cnt (fun t => t == s) st.pushes ≤ 1 ∧ (s ∈ st.pushes → s ∈ st.processedCoins)

theorem monStep_preserves (s : String) (st : MonState) (op : MonOp)
    (hop : op ≠ MonOp.clear) (h : MonInv s st) :
    MonInv s (monStep st op) ∧
    (s ∈ st.processedCoins → s ∈ (monStep st op).processedCoins) := by
  obtain ⟨hcnt, hmem⟩ := h
  cases op with
  | consume => exact ⟨⟨hcnt, hmem⟩, fun h => h⟩
  | clear => exact absurd rfl hop
  | extract t =>
    by_cases hin : t ∈ st.processedCoins
    · simp only [monStep, if_pos hin]
      exact ⟨⟨hcnt, hmem⟩, fun h => h⟩
    · by_cases hcap : st.chan.length < 100
      · simp only [monStep, if_neg hin, if_pos hcap]
        refine ⟨⟨?_, ?_⟩, fun h => by simp [h]⟩
        · rw [cnt_append]
          by_cases hts : t = s
          · subst hts
            have hzero : cnt (fun u => u == t) st.pushes = 0 := by
              apply cnt_eq_zero_of_all
              intro x hx
              by_cases hxt : x = t
              · subst hxt
                exact absurd (hmem hx) hin
              · simp [hxt]
            simp [cnt, hzero]
          · have : cnt (fun u => u == s) [t] = 0 := by simp [cnt, hts]
            omega
        · intro hmem2
          rcases List.mem_append.mp hmem2 with h2 | h2
          · exact List.mem_cons_of_mem _ (hmem h2)
          · simp at h2
            subst h2
            exact List.mem_cons_self _ _
      · simp only [monStep, if_neg hin, if_neg hcap]
        exact ⟨⟨hcnt, fun h => List.mem_cons_of_mem _ (hmem h)⟩, fun h => by simp [h]⟩
  | inject t =>
    by_cases hin : t ∈ st.processedCoins
    · simp only [monStep, if_pos hin]
      exact ⟨⟨hcnt, hmem⟩, fun h => h⟩
    · by_cases hcap : st.chan.length < 100
      · simp only [monStep, if_neg hin, if_pos hcap]
        refine ⟨⟨?_, ?_⟩, fun h => by simp [h]⟩
        · rw [cnt_append]
          by_cases hts : t = s
          · subst hts
            have hzero : cnt (fun u => u == t) st.pushes = 0 := by
              apply cnt_eq_zero_of_all
              intro x hx
              by_cases hxt : x = t
              · subst hxt
                exact absurd (hmem hx) hin
              · simp [hxt]
            simp [cnt, hzero]
          · have : cnt (fun u => u == s) [t] = 0 := by simp [cnt, hts]
            omega
        · intro hmem2
          rcases List.mem_append.mp hmem2 with h2 | h2
          · exact List.mem_cons_of_mem _ (hmem h2)
          · simp at h2
            subst h2
            exact List.mem_cons_self _ _
      · simp only [monStep, if_neg hin, if_neg hcap]
        exact ⟨⟨hcnt, fun h => List.mem_cons_of_mem _ (hmem h)⟩, fun h => by simp [h]⟩

theorem monRun_aux (s : String) (ops : List MonOp) (st : MonState)
    (hops : MonOp.clear ∉ ops) (h : MonInv s st) :
    MonInv s (ops.foldl monStep st) ∧
    (s ∈ st.processedCoins → s ∈ (ops.foldl monStep st).processedCoins) := by
  induction ops generalizing st with
  | nil => exact ⟨h, fun h2 => h2⟩
  | cons op rest ih =>
    have hop : op ≠ MonOp.clear := fun he => hops (by simp [he])
    have hrest : MonOp.clear ∉ rest := fun he => hops (by simp [he])
    obtain ⟨hinv, hmono⟩ := monStep_preserves s st op hop h
    obtain ⟨hinv2, hmono2⟩ := ih (monStep st op) hrest hinv
    exact ⟨hinv2, fun h2 => hmono2 (hmono h2)⟩

/-- Once a symbol is marked, a single non-clear operation neither pushes it
again (its push count is unchanged — even when the operation pushes some other
symbol) nor unmarks it. -/
theorem monStep_count_of_marked (s : String) (st : MonState) (op : MonOp)
    (hop : op ≠ MonOp.clear) (hmem : s ∈ st.processedCoins) :
    cnt (fun t => t == s) (monStep st op).pushes = cnt (fun t => t == s) st.pushes ∧
    s ∈ (monStep st op).processedCoins := by
  cases op with
  | consume => exact ⟨rfl, hmem⟩
  | clear => exact absurd rfl hop
  | extract t =>
    by_cases hin : t ∈ st.processedCoins
    · simp only [monStep, if_pos hin]
      exact ⟨trivial, hmem⟩
    · have hts : (t == s) = false := by
        have hne : t ≠ s := fun he => hin (he ▸ hmem)
        simp [hne]
      by_cases hcap : st.chan.length < 100
      · simp only [monStep, if_neg hin, if_pos hcap]
        constructor
        · rw [cnt_append]
          simp [cnt, hts]
        · exact List.mem_cons_of_mem _ hmem
      · simp only [monStep, if_neg hin, if_neg hcap]
        exact ⟨trivial, List.mem_cons_of_mem _ hmem⟩
  | inject t =>
    by_cases hin : t ∈ st.processedCoins
    · simp only [monStep, if_pos hin]
      exact ⟨trivial, hmem⟩
    · have hts : (t == s) = false := by
        have hne : t ≠ s := fun he => hin (he ▸ hmem)
        simp [hne]
      by_cases hcap : st.chan.length < 100
      · simp only [monStep, if_neg hin, if_pos hcap]
        constructor
        · rw [cnt_append]
          simp [cnt, hts]
        · exact List.mem_cons_of_mem _ hmem
      · simp only [monStep, if_neg hin, if_neg hcap]
        exact ⟨trivial, List.mem_cons_of_mem _ hmem⟩

/-- Once a symbol is marked, a whole clear-free suffix of operations never
pushes it again and leaves it marked. -/
theorem monRun_count_of_marked (s : String) (post : List MonOp) (st : MonState)
    (hpost : MonOp.clear ∉ post) (hmem : s ∈ st.processedCoins) :
    cnt (fun t => t == s) ((post.foldl monStep st).pushes)
      = cnt (fun t => t == s) st.pushes ∧
    s ∈ (post.foldl monStep st).processedCoins := by
  induction post generalizing st with
  | nil => exact ⟨rfl, hmem⟩
  | cons op rest ih =>
    have hop : op ≠ MonOp.clear := fun he => hpost (by simp [he])
    have hrest : MonOp.clear ∉ rest := fun he => hpost (by simp [he])
    obtain ⟨h1, h2⟩ := monStep_count_of_marked s st op hop hmem
    obtain ⟨h3, h4⟩ := ih (monStep st op) hrest h2
    rw [List.foldl_cons]
    exact ⟨h3.trans h1, h4⟩

/-- C7: within a session (no administrative `ClearProcessedCoins` in the trace),
a symbol is pushed onto the event bus at most once; moreover, at any point of
the trace where the symbol is marked in the dedup set it stays marked for the
rest of the session and is never pushed onto the bus during the rest of the
session (its push count over the whole trace equals its push count at the mark
point) — in particular a symbol whose first event was dropped because the bus
was full, which is marked with zero pushes, is never pushed afterwards. -/
theorem dedup_never_reemits (ops : List MonOp) (s : String)
    (hops : MonOp.clear ∉ ops) :
    cnt (fun t => t == s) (monRun ops).pushes ≤ 1 ∧
    (∀ pre post, ops = pre ++ post → s ∈ (monRun pre).processedCoins →
      s ∈ (monRun ops).processedCoins ∧
      cnt (fun t => t == s) (monRun ops).pushes
        = cnt (fun t => t == s) (monRun pre).pushes) := by
  constructor
  · exact (monRun_aux s ops _ hops ⟨by simp [cnt], by simp⟩).1.1
  · intro pre post hsplit hmem
    subst hsplit
    have hpost : MonOp.clear ∉ post := fun he => hops (by simp [he])
    have hsplit2 : monRun (pre ++ post) = post.foldl monStep (monRun pre) := by
      unfold monRun
      rw [List.foldl_append]
    rw [hsplit2]
    obtain ⟨h1, h2⟩ := monRun_count_of_marked s post (monRun pre) hpost hmem
    exact ⟨h2, h1⟩

theorem dedup_never_reemits_witness :
    (MonOp.clear ∉ [MonOp.extract "TOSHI", MonOp.extract "TOSHI", MonOp.inject "TOSHI"]) ∧
    cnt (fun t => t == "TOSHI")
      (monRun [MonOp.extract "TOSHI", MonOp.extract "TOSHI", MonOp.inject "TOSHI"]).pushes ≤ 1 ∧
    ("TOSHI" ∈ (monRun [MonOp.extract "TOSHI"]).processedCoins ∧
      cnt (fun t => t == "TOSHI")
        (monRun [MonOp.extract "TOSHI", MonOp.extract "TOSHI", MonOp.inject "TOSHI"]).pushes
        = cnt (fun t => t == "TOSHI") (monRun [MonOp.extract "TOSHI"]).pushes) := by
  refine ⟨by decide, ?_, ?_⟩
  · exact (dedup_never_reemits [MonOp.extract "TOSHI", MonOp.extract "TOSHI", MonOp.inject "TOSHI"]
      "TOSHI" (by decide)).1
  · exact (dedup_never_reemits [MonOp.extract "TOSHI", MonOp.extract "TOSHI", MonOp.inject "TOSHI"]
      "TOSHI" (by decide)).2 [MonOp.extract "TOSHI"]
      [MonOp.extract "TOSHI", MonOp.inject "TOSHI"] (by decide) (by decide)

/-! ## Symbol extraction (`extractCoinSymbols` and helpers, `upbit_monitor.go`)

Character classes are stated on code points: 65–90 = `A`–`Z`, 97–122 = `a`–`z`,
48–57 = `0`–`9`, matching Go's rune comparisons and the ASCII classes of the
regular expressions `\(([A-Z]+)\)` and `\b([A-Z]{2,10})\b` (whose `\b` is a
boundary between `\w` = `[0-9A-Za-z_]` and anything else). -/

def isUpperAZ (c : Char) : Bool := decide (65 ≤ c.toNat ∧ c.toNat ≤ 90)

def isLowerAZ (c : Char) : Bool := decide (97 ≤ c.toNat ∧ c.toNat ≤ 122)

def isDigit09 (c : Char) : Bool := decide (48 ≤ c.toNat ∧ c.toNat ≤ 57)

def isWordChar (c : Char) : Bool := isUpperAZ c || isLowerAZ c || isDigit09 c || c == '_'

/-- White space for `strings.TrimSpace` (ASCII range plus NEL and NBSP). -/
def isSpaceCh (c : Char) : Bool :=
  decide ((9 ≤ c.toNat ∧ c.toNat ≤ 13) ∨ c.toNat = 32 ∨ c.toNat = 133 ∨ c.toNat = 160)

def goToUpperChar (c : Char) : Char :=
  if isLowerAZ c then Char.ofNat (c.toNat - 32) else c

/-- `strings.ToUpper` on the relevant (ASCII) alphabet. -/
def goToUpper (l : List Char) : List Char := l.map goToUpperChar

/-- `strings.TrimSpace`. -/
def goTrimSpace (l : List Char) : List Char :=
  ((l.dropWhile isSpaceCh).reverse.dropWhile isSpaceCh).reverse

/-- Maximal uppercase prefix of a character list, with the remainder. -/
def upperRun : List Char → List Char × List Char
  | [] => ([], [])
  | c :: cs =>
    if isUpperAZ c then
      let r := upperRun cs
      (c :: r.1, r.2)
    else ([], c :: cs)

/-- Captures of `\(([A-Z]+)\)` (leftmost, non-overlapping): an opening
parenthesis, a maximal nonempty uppercase run, a closing parenthesis; on a
match the scan resumes after the closing parenthesis, otherwise after the
opening one.  `fuel` bounds the recursion (callers pass the list length). -/
def pattern1Aux : Nat → List Char → List (List Char)
  | 0, _ => []
  | _ + 1, [] => []
  | fuel + 1, c :: cs =>
    if c = '(' then
      let pr := upperRun cs
      if pr.1 ≠ [] ∧ pr.2.head? = some ')' then pr.1 :: pattern1Aux fuel pr.2.tail
      else pattern1Aux fuel cs
    else pattern1Aux fuel cs

def pattern1Matches (s : List Char) : List (List Char) := pattern1Aux s.length s

/-- Maximal word-character runs of the title. -/
def wordRunsAux : List Char → List Char → List (List Char)
  | [], acc => if acc.isEmpty then [] else [acc.reverse]
  | c :: cs, acc =>
    if isWordChar c then wordRunsAux cs (c :: acc)
    else if acc.isEmpty then wordRunsAux cs [] else acc.reverse :: wordRunsAux cs []

def wordRuns (s : List Char) : List (List Char) := wordRunsAux s []

/-- Matches of `\b([A-Z]{2,10})\b`: exactly the maximal word-character runs
that consist of 2–10 uppercase letters (a shorter sub-token can never match
because there is no word boundary inside a word run). -/
def pattern2Matches (s : List Char) : List (List Char) :=
  (wordRuns s).filter fun r =>
    r.all isUpperAZ && decide (2 ≤ r.length) && decide (r.length ≤ 10)

/-- `isValidCoinSymbol`: 2–10 characters, all uppercase letters or digits, and
the letter count is at least `len/2` (Go integer division). -/
def isValidCoinSymbol (s : List Char) : Bool :=
  if s.length < 2 ∨ 10 < s.length then false
  else if s.all (fun c => isUpperAZ c || isDigit09 c) then
    decide (s.length / 2 ≤ cnt isUpperAZ s)
  else false

/-- The `commonWords` stoplist of `isCommonWord`. -/
def commonWords : List (List Char) :=
  ["FOR".data, "THE".data, "AND".data, "WITH".data, "MARKET".data,
   "SUPPORT".data, "NEW".data, "TRADING".data, "KRW".data, "USDT".data,
   "USD".data, "BTC".data, "ETH".data, "ANNOUNCEMENT".data]

def isCommonWord (s : List Char) : Bool := commonWords.contains s

/-- `removeDuplicates` (the `seen` map accumulates emitted symbols). -/
def rdAux : List (List Char) → List (List Char) → List (List Char)
  | [], _ => []
  | x :: xs, seen => if x ∈ seen then rdAux xs seen else x :: rdAux xs (x :: seen)

def removeDuplicates (l : List (List Char)) : List (List Char) := rdAux l []

/-- `extractCoinSymbols`: pattern-1 captures filtered by `isValidCoinSymbol`
only, then pattern-2 matches filtered by `isValidCoinSymbol` and the stoplist,
then de-duplication — each candidate first passes through
`strings.ToUpper(strings.TrimSpace(·))`. -/
def extractCoinSymbols (title : List Char) : List (List Char) :=
  let coins1 := ((pattern1Matches title).map fun m => goToUpper (goTrimSpace m)).filter
    isValidCoinSymbol
  let coins2 := ((pattern2Matches title).map fun m => goToUpper (goTrimSpace m)).filter
    fun s => isValidCoinSymbol s && !(isCommonWord s)
  removeDuplicates (coins1 ++ coins2)

theorem isValidCoinSymbol_spec {s : List Char} (h : isValidCoinSymbol s = true) :
    2 ≤ s.length ∧ s.length ≤ 10 ∧
    s.all (fun c => isUpperAZ c || isDigit09 c) = true ∧
    s.length / 2 ≤ cnt isUpperAZ s := by
  by_cases h1 : s.length < 2 ∨ 10 < s.length
  · rw [isValidCoinSymbol, if_pos h1] at h
    exact absurd h (by simp)
  · rw [isValidCoinSymbol, if_neg h1] at h
    by_cases h2 : s.all (fun c => isUpperAZ c || isDigit09 c) = true
    · rw [if_pos h2] at h
      push_neg at h1
      exact ⟨h1.1, h1.2, h2, of_decide_eq_true h⟩
    · rw [if_neg h2] at h
      exact absurd h (by simp)

theorem upperRun_fst_upper (l : List Char) : ∀ c ∈ (upperRun l).1, isUpperAZ c = true := by
  induction l with
  | nil => simp [upperRun]
  | cons x xs ih =>
    by_cases hx : isUpperAZ x = true
    · simp only [upperRun, if_pos hx]
      intro c hc
      rcases List.mem_cons.mp hc with rfl | hc
      · exact hx
      · exact ih c hc
    · simp only [upperRun, if_neg hx]
      simp

theorem pattern1Aux_upper (fuel : Nat) (l : List Char) :
    ∀ m ∈ pattern1Aux fuel l, ∀ c ∈ m, isUpperAZ c = true := by
  induction fuel generalizing l with
  | zero => simp [pattern1Aux]
  | succ f ih =>
    cases l with
    | nil => simp [pattern1Aux]
    | cons x xs =>
      by_cases hx : x = '('
      · simp only [pattern1Aux, if_pos hx]
        by_cases hg : (upperRun xs).1 ≠ [] ∧ (upperRun xs).2.head? = some ')'
        · simp only [if_pos hg]
          intro m hm
          rcases List.mem_cons.mp hm with rfl | hm
          · exact upperRun_fst_upper xs
          · exact ih _ m hm
        · simp only [if_neg hg]
          exact ih xs
      · simp only [pattern1Aux, if_neg hx]
        exact ih xs

theorem pattern2Matches_upper (t : List Char) :
    ∀ m ∈ pattern2Matches t, ∀ c ∈ m, isUpperAZ c = true := by
  intro m hm
  have hcond := (List.mem_filter.mp hm).2
  simp only [Bool.and_eq_true] at hcond
  exact fun c hc => List.all_eq_true.mp hcond.1.1 c hc

theorem mem_of_mem_dropWhile {α : Type} (p : α → Bool) (l : List α) {c : α}
    (h : c ∈ l.dropWhile p) : c ∈ l := by
  induction l with
  | nil => simp at h
  | cons x xs ih =>
    by_cases hx : p x = true
    · rw [List.dropWhile_cons, if_pos hx] at h
      exact List.mem_cons_of_mem _ (ih h)
    · rw [List.dropWhile_cons, if_neg hx] at h
      exact h

theorem goTrimSpace_subset (l : List Char) : ∀ c ∈ goTrimSpace l, c ∈ l := by
  intro c hc
  unfold goTrimSpace at hc
  rw [List.mem_reverse] at hc
  have h1 := mem_of_mem_dropWhile _ _ hc
  rw [List.mem_reverse] at h1
  exact mem_of_mem_dropWhile _ _ h1

theorem goToUpperChar_upper {c : Char} (h : isUpperAZ c = true) : goToUpperChar c = c := by
  have hl : ¬ isLowerAZ c = true := by
    unfold isLowerAZ
    unfold isUpperAZ at h
    simp only [decide_eq_true_eq] at h ⊢
    omega
  unfold goToUpperChar
  rw [if_neg hl]

theorem goToUpper_upper {m : List Char} (h : ∀ c ∈ m, isUpperAZ c = true) :
    ∀ c ∈ goToUpper m, isUpperAZ c = true := by
  intro c hc
  unfold goToUpper at hc
  rcases List.mem_map.mp hc with ⟨d, hd, rfl⟩
  rw [goToUpperChar_upper (h d hd)]
  exact h d hd

theorem rdAux_subset {x : List Char} : ∀ (l seen : List (List Char)), x ∈ rdAux l seen → x ∈ l := by
  intro l
  induction l with
  | nil =>
    intro seen h
    simp [rdAux] at h
  | cons y ys ih =>
    intro seen h
    unfold rdAux at h
    by_cases hy : y ∈ seen
    · rw [if_pos hy] at h
      exact List.mem_cons_of_mem _ (ih _ h)
    · rw [if_neg hy] at h
      rcases List.mem_cons.mp h with rfl | h
      · exact List.mem_cons_self _ _
      · exact List.mem_cons_of_mem _ (ih _ h)

theorem rdAux_not_mem {y : List Char} : ∀ (l seen : List (List Char)), y ∈ seen → y ∉ rdAux l seen := by
  intro l
  induction l with
  | nil =>
    intro seen _ h
    simp [rdAux] at h
  | cons x xs ih =>
    intro seen hy h
    unfold rdAux at h
    by_cases hx : x ∈ seen
    · rw [if_pos hx] at h
      exact ih _ hy h
    · rw [if_neg hx] at h
      rcases List.mem_cons.mp h with rfl | h
      · exact hx hy
      · exact ih _ (List.mem_cons_of_mem _ hy) h

theorem rdAux_nodup : ∀ (l seen : List (List Char)), (rdAux l seen).Nodup := by
  intro l
  induction l with
  | nil =>
    intro seen
    simp [rdAux]
  | cons x xs ih =>
    intro seen
    unfold rdAux
    by_cases hx : x ∈ seen
    · rw [if_pos hx]
      exact ih _
    · rw [if_neg hx]
      exact List.nodup_cons.mpr ⟨rdAux_not_mem _ _ (List.mem_cons_self _ _), ih _⟩

/-- C4 (amended): every symbol returned by `extractCoinSymbols` has length 2–10,
consists only of uppercase letters and digits (in fact only uppercase letters,
so at least 50% of its characters are alphabetic), and appears at most once in
the returned list; any returned symbol that IS a stoplist word necessarily came
from the parenthesized pattern, whose candidates the code never checks against
`isCommonWord` — the stoplist conjunct of the original claim holds only for the
bare-token pattern. -/
theorem extractCoinSymbols_sound (title s : List Char) (h : s ∈ extractCoinSymbols title) :
    2 ≤ s.length ∧ s.length ≤ 10 ∧
    s.all (fun c => isUpperAZ c || isDigit09 c) = true ∧
    s.length ≤ 2 * cnt isUpperAZ s ∧
    (extractCoinSymbols title).Nodup ∧
    (isCommonWord s = true →
      s ∈ (pattern1Matches title).map fun m => goToUpper (goTrimSpace m)) := by
  have hnodup : (extractCoinSymbols title).Nodup := by
    unfold extractCoinSymbols removeDuplicates
    exact rdAux_nodup _ _
  unfold extractCoinSymbols removeDuplicates at h
  have hmem := rdAux_subset _ _ h
  rcases List.mem_append.mp hmem with h1 | h2
  · obtain ⟨hmap, hvalid⟩ := List.mem_filter.mp h1
    obtain ⟨m, hm, rfl⟩ := List.mem_map.mp hmap
    obtain ⟨hlen2, hlen10, hchars, -⟩ := isValidCoinSymbol_spec hvalid
    have hupper : ∀ c ∈ goToUpper (goTrimSpace m), isUpperAZ c = true :=
      goToUpper_upper fun c hc =>
        pattern1Aux_upper _ _ m hm c (goTrimSpace_subset m c hc)
    have hcnt : cnt isUpperAZ (goToUpper (goTrimSpace m))
        = (goToUpper (goTrimSpace m)).length := cnt_eq_length_of_all hupper
    refine ⟨hlen2, hlen10, hchars, by omega, hnodup, fun _ => ?_⟩
    exact List.mem_map.mpr ⟨m, hm, rfl⟩
  · obtain ⟨hmap, hcond⟩ := List.mem_filter.mp h2
    simp only [Bool.and_eq_true] at hcond
    obtain ⟨hvalid, hnotcommon⟩ := hcond
    obtain ⟨m, hm, rfl⟩ := List.mem_map.mp hmap
    obtain ⟨hlen2, hlen10, hchars, -⟩ := isValidCoinSymbol_spec hvalid
    have hupper : ∀ c ∈ goToUpper (goTrimSpace m), isUpperAZ c = true :=
      goToUpper_upper fun c hc =>
        pattern2Matches_upper _ m hm c (goTrimSpace_subset m c hc)
    have hcnt : cnt isUpperAZ (goToUpper (goTrimSpace m))
        = (goToUpper (goTrimSpace m)).length := cnt_eq_length_of_all hupper
    refine ⟨hlen2, hlen10, hchars, by omega, hnodup, fun hcommon => ?_⟩
    rw [hcommon] at hnotcommon
    simp at hnotcommon

theorem extractCoinSymbols_sound_witness :
    ("TOSHI".data ∈ extractCoinSymbols "(TOSHI)".data) ∧
    2 ≤ "TOSHI".data.length ∧
    extractCoinSymbols "Market Support for Toshi(TOSHI) (KRW, USDT Market)".data
      = ["TOSHI".data] := by
  refine ⟨by decide, ?_, by decide⟩
  exact (extractCoinSymbols_sound "(TOSHI)".data "TOSHI".data (by decide)).1

/-- C4 counterexample: the title `"(USDT)"` yields the extracted list
`["USDT"]` even though `USDT` is a word of the common-word stoplist — the
parenthesized pattern's candidates bypass `isCommonWord`, so "every returned
symbol is not a stoplist word" is false. -/
theorem extractCoinSymbols_stoplist_counterexample :
    extractCoinSymbols "(USDT)".data = ["USDT".data] ∧
    isCommonWord "USDT".data = true := by
  exact ⟨by decide, by decide⟩

/-! ## Worker pool and per-user locks (`trading_engine.go`)

Work items are launched at three sites.  `handleNewCoin` and
`updateAllPositions` launch tasks whose body is
`apiWorkerPool <- struct{}{}` (acquire one of 10 slots), `userMutex.Lock()`
(acquire the per-user lock), the external call sequence, then the deferred
unlock and slot release — these are the `pooled` items.  `handleTestCoin`
calls `processUserTrade` directly with neither the pool slot nor the user
mutex — the non-pooled (test) items.

Phases of a pooled item: 0 idle, 1 slot acquired, 2 lock acquired,
3 executing the external call sequence, 4 calls done and lock released,
5 slot released.  Phases of a test item: 0 idle, 1 executing the external
call sequence, 2 done. -/

structure WItem where
  pooled : Bool
  key : Int
  deriving DecidableEq, Repr

abbrev PoolConfig := List (WItem × Nat)

/-- Item currently occupies a worker-pool slot. -/
def slotHeld (ip : WItem × Nat) : Bool :=
  ip.1.pooled && decide (1 ≤ ip.2) && decide (ip.2 ≤ 4)

/-- Item currently inside the external call sequence. -/
def inExt (ip : WItem × Nat) : Bool :=
  if ip.1.pooled then ip.2 == 3 else ip.2 == 1

/-- Item currently holds the per-user mutex of key `k`. -/
def holdsLock (k : Int) (ip : WItem × Nat) : Bool :=
  ip.1.pooled && ip.1.key == k && decide (2 ≤ ip.2) && decide (ip.2 ≤ 3)

def slotsUsed (c : PoolConfig) : Nat := cnt slotHeld c

def extCount (c : PoolConfig) : Nat := cnt inExt c

def lockHolders (c : PoolConfig) (k : Int) : Nat := cnt (holdsLock k) c

/-- Whether the item's next transition can fire: slot acquisition blocks while
all 10 slots are taken (`apiWorkerPool` has capacity 10), lock acquisition
blocks while another item holds the same key's mutex; a test item runs
unguarded. -/
def stepEnabled (c : PoolConfig) (it : WItem) (ph : Nat) : Bool :=
  if it.pooled then
    if ph == 0 then decide (slotsUsed c < 10)
    else if ph == 1 then lockHolders c it.key == 0
    else decide (ph ≤ 4)
  else decide (ph ≤ 1)

def poolStep (c : PoolConfig) (i : Nat) : PoolConfig :=
  match c.get? i with
  | none => c
  | some (it, ph) => if stepEnabled c it ph then c.set i (it, ph + 1) else c

def poolRun (c : PoolConfig) : List Nat → PoolConfig
  | [] => c
  | i :: tr => poolRun (poolStep c i) tr

def poolInit (items : List WItem) : PoolConfig := items.map fun it => (it, 0)

def PoolInv (c : PoolConfig) : Prop :=
  slotsUsed c ≤ 10 ∧ ∀ k, lockHolders c k ≤ 1

theorem cnt_set_same {α : Type} {p : α → Bool} {l : List α} {i : Nat} {x : α} (hi : i < l.length)
    (hsame : p (l.get ⟨i, hi⟩) = p x) : cnt p (l.set i x) = cnt p l := by
  have h := cnt_set p l i x hi
  rw [hsame] at h
  omega

theorem cnt_set_incr {α : Type} {p : α → Bool} {l : List α} {i : Nat} {x : α} (hi : i < l.length)
    (hold : p (l.get ⟨i, hi⟩) = false) (hnew : p x = true) :
    cnt p (l.set i x) = cnt p l + 1 := by
  have h := cnt_set p l i x hi
  rw [hold, hnew] at h
  simp at h
  omega

theorem cnt_set_decr {α : Type} {p : α → Bool} {l : List α} {i : Nat} {x : α} (hi : i < l.length)
    (hold : p (l.get ⟨i, hi⟩) = true) (hnew : p x = false) :
    cnt p (l.set i x) + 1 = cnt p l := by
  have h := cnt_set p l i x hi
  rw [hold, hnew] at h
  simp at h
  omega

theorem poolStep_preserves (c : PoolConfig) (i : Nat) (h : PoolInv c) :
    PoolInv (poolStep c i) := by
  unfold poolStep
  cases hg : c.get? i with
  | none => exact h
  | some ip =>
    obtain ⟨it, ph⟩ := ip
    show PoolInv (if stepEnabled c it ph = true then c.set i (it, ph + 1) else c)
    by_cases hen : stepEnabled c it ph = true
    · rw [if_pos hen]
      obtain ⟨hi, hget⟩ := List.get?_eq_some.mp hg
      by_cases hp : it.pooled = true
      · have hph4 : ph ≤ 4 := by
          by_contra hgt
          push_neg at hgt
          have h0 : (ph == 0) = false := by simp; omega
          have h1 : (ph == 1) = false := by simp; omega
          have h4 : ¬(ph ≤ 4) := by omega
          simp [stepEnabled, hp, h0, h1, h4] at hen
        interval_cases ph
        · simp only [stepEnabled, hp, if_true] at hen
          simp only [Nat.reduceBEq, decide_eq_true_eq, if_true, if_pos rfl] at hen
          constructor
          · unfold slotsUsed
            rw [cnt_set_incr hi (by rw [hget]; simp [slotHeld]) (by simp [slotHeld, hp])]
            unfold slotsUsed at hen
            omega
          · intro k
            unfold lockHolders
            rw [cnt_set_same hi (by rw [hget]; simp [holdsLock])]
            exact h.2 k
        · have hen2 : lockHolders c it.key = 0 := by
            simp [stepEnabled, hp] at hen
            exact hen
          constructor
          · unfold slotsUsed
            rw [cnt_set_same hi (by rw [hget]; simp [slotHeld])]
            exact h.1
          · intro k
            unfold lockHolders
            by_cases hk : it.key = k
            · subst hk
              rw [cnt_set_incr hi (by rw [hget]; simp [holdsLock]) (by simp [holdsLock, hp])]
              unfold lockHolders at hen2
              omega
            · rw [cnt_set_same hi (by rw [hget]; simp [holdsLock, hk])]
              exact h.2 k
        · constructor
          · unfold slotsUsed
            rw [cnt_set_same hi (by rw [hget]; simp [slotHeld])]
            exact h.1
          · intro k
            unfold lockHolders
            rw [cnt_set_same hi (by rw [hget]; simp [holdsLock])]
            exact h.2 k
        · constructor
          · unfold slotsUsed
            rw [cnt_set_same hi (by rw [hget]; simp [slotHeld])]
            exact h.1
          · intro k
            unfold lockHolders
            by_cases hk : it.key = k
            · subst hk
              have hd := cnt_set_decr hi (p := holdsLock it.key) (x := (it, 3 + 1))
                (by rw [hget]; simp [holdsLock, hp]) (by simp [holdsLock])
              have := h.2 it.key
              unfold lockHolders at this
              omega
            · rw [cnt_set_same hi (by rw [hget]; simp [holdsLock, hk])]
              exact h.2 k
        · constructor
          · unfold slotsUsed
            have hd := cnt_set_decr hi (p := slotHeld) (x := (it, 4 + 1))
              (by rw [hget]; simp [slotHeld, hp]) (by simp [slotHeld])
            have := h.1
            unfold slotsUsed at this
            omega
          · intro k
            unfold lockHolders
            rw [cnt_set_same hi (by rw [hget]; simp [holdsLock])]
            exact h.2 k
      · have hp2 : it.pooled = false := by
          revert hp
          cases it.pooled <;> simp
        constructor
        · unfold slotsUsed
          rw [cnt_set_same hi (by rw [hget]; simp [slotHeld, hp2])]
          exact h.1
        · intro k
          unfold lockHolders
          rw [cnt_set_same hi (by rw [hget]; simp [holdsLock, hp2])]
          exact h.2 k
    · rw [if_neg hen]
      exact h

theorem poolRun_preserves (tr : List Nat) (c : PoolConfig) (h : PoolInv c) :
    PoolInv (poolRun c tr) := by
  induction tr generalizing c with
  | nil => exact h
  | cons i rest ih => exact ih _ (poolStep_preserves c i h)

theorem poolInit_inv (items : List WItem) : PoolInv (poolInit items) := by
  constructor
  · unfold slotsUsed
    rw [cnt_eq_zero_of_all]
    · omega
    · intro x hx
      obtain ⟨it, -, rfl⟩ := List.mem_map.mp hx
      simp [slotHeld]
  · intro k
    unfold lockHolders
    rw [cnt_eq_zero_of_all]
    · omega
    · intro x hx
      obtain ⟨it, -, rfl⟩ := List.mem_map.mp hx
      simp [holdsLock]

/-- C3 (amended): along every interleaving, at most 10 *pooled* work items —
those launched by `handleNewCoin` and `updateAllPositions`, which acquire a
worker-pool slot before and hold the per-user mutex around the external call
sequence — are inside the external call sequence at once, and for every actor
key at most one pooled item holds that key's lock at once.  The test-injection
path (`handleTestCoin`) performs the same external call sequence with neither
the pool slot nor the per-key lock, so the bound over *all* external calls can
be exceeded (see the counterexample). -/
theorem workerPool_bound (items : List WItem) (tr : List Nat) :
    cnt (fun ip => ip.1.pooled && inExt ip) (poolRun (poolInit items) tr) ≤ 10 ∧
    ∀ k, lockHolders (poolRun (poolInit items) tr) k ≤ 1 := by
  have hinv := poolRun_preserves tr _ (poolInit_inv items)
  constructor
  · have hle : cnt (fun ip => ip.1.pooled && inExt ip) (poolRun (poolInit items) tr)
        ≤ slotsUsed (poolRun (poolInit items) tr) := by
      unfold slotsUsed
      apply cnt_le_of_imp
      intro ip _ hip
      simp only [Bool.and_eq_true] at hip
      obtain ⟨hpo, hext⟩ := hip
      simp only [inExt, hpo, if_true] at hext
      have : ip.2 = 3 := by simpa using hext
      simp [slotHeld, hpo, this]
    exact le_trans hle hinv.1
  · exact hinv.2

def cItems : List WItem :=
  [⟨true, 0⟩, ⟨true, 1⟩, ⟨true, 2⟩, ⟨true, 3⟩, ⟨true, 4⟩,
   ⟨true, 5⟩, ⟨true, 6⟩, ⟨true, 7⟩, ⟨true, 8⟩, ⟨true, 9⟩, ⟨false, 0⟩]

def cTrace : List Nat :=
  [0, 0, 0, 1, 1, 1, 2, 2, 2, 3, 3, 3, 4, 4, 4,
   5, 5, 5, 6, 6, 6, 7, 7, 7, 8, 8, 8, 9, 9, 9, 10]

/-- C3 counterexample: ten pooled work items (distinct actors) each acquire a
slot and their lock and enter the external call sequence; one test-injection
item for actor key 0 then enters the external call sequence directly.  The
reached configuration has 11 external calls in flight — more than the claimed
bound of 10 — and two concurrent work items for actor key 0. -/
theorem workerPool_counterexample :
    10 < extCount (poolRun (poolInit cItems) cTrace) ∧
    2 ≤ cnt (fun ip => inExt ip && (ip.1.key == 0)) (poolRun (poolInit cItems) cTrace) := by
  constructor
  · decide
  · decide

end BitgetPerp
